import Mathlib

/-!
Verification development for the storage forest layer (`storage/forest.go`).

The file embeds the forest layer shallowly in Lean:

* `CommitID` and its binary (de)serialisation (`marshalCommitID`,
  `unmarshalCommitID`), with the protocol-buffer wire format of the
  `CommitID` message modelled from the specification.
* `RWTree`, the per-namespace versioned tree collaborator.  Its
  implementation is not part of the sources under verification, so it is
  modelled from the specification's collaborator contract (section 6).
* `Forest`, the state of a `MutableForest` (which embeds the fields of its
  `ImmutableForest`), with the operations `Writer`, `Reader`, `Save`,
  `Delete`, `GetImmutable` translated from `forest.go`.  Go's in-place
  mutation is rendered as explicit state passing: every stateful operation
  returns its result together with the post-state; shared `*RWTree`
  pointers are rendered as numeric identifiers into an explicit heap.
-/

namespace Burrow

deriving instance DecidableEq for Except

/-- Byte sequences (`[]byte`). -/
abbrev Bytes := List Nat

/-- Key/value association lists, used for the committed content of a tree. -/
abbrev KV := List (Bytes × Bytes)

/-- First-occurrence lookup in an association list (Go map read). -/
def aGet {κ α : Type} [DecidableEq κ] : List (κ × α) → κ → Option α
  | [], _ => none
  | (k', v) :: r, k => if k' = k then some v else aGet r k

/-- Update-or-append in an association list (Go map write). -/
def aSet {κ α : Type} [DecidableEq κ] : List (κ × α) → κ → α → List (κ × α)
  | [], k, v => [(k, v)]
  | (k', v') :: r, k, v => if k' = k then (k, v) :: r else (k', v') :: aSet r k v

/-- Remove a key from an association list. -/
def aDel {κ α : Type} [DecidableEq κ] : List (κ × α) → κ → List (κ × α)
  | [], _ => []
  | (k', v') :: r, k => if k' = k then r else (k', v') :: aDel r k

@[simp] theorem aGet_nil {κ α : Type} [DecidableEq κ] (k : κ) :
    aGet ([] : List (κ × α)) k = none := rfl

@[simp] theorem aGet_cons {κ α : Type} [DecidableEq κ] (k' k : κ) (v : α) (r : List (κ × α)) :
    aGet ((k', v) :: r) k = if k' = k then some v else aGet r k := rfl

theorem aGet_aSet_self {κ α : Type} [DecidableEq κ] (l : List (κ × α)) (k : κ) (v : α) :
    aGet (aSet l k v) k = some v := by
  induction l with
  | nil => simp [aGet, aSet]
  | cons hd tl ih =>
    obtain ⟨k', v'⟩ := hd
    by_cases h : k' = k
    · simp [aGet, aSet, h]
    · simp [aGet, aSet, h, ih]

theorem aGet_aSet_ne {κ α : Type} [DecidableEq κ] (l : List (κ × α)) (k k' : κ) (v : α)
    (h : k ≠ k') : aGet (aSet l k v) k' = aGet l k' := by
  induction l with
  | nil => simp [aGet, aSet, h]
  | cons hd tl ih =>
    obtain ⟨k0, v0⟩ := hd
    by_cases h0 : k0 = k
    · simp [aGet, aSet, h0, h]
    · simp only [aSet, if_neg h0, aGet_cons]
      by_cases h1 : k0 = k'
      · simp [h1]
      · simp [h1, ih]

theorem mem_of_aGet {κ α : Type} [DecidableEq κ] {l : List (κ × α)} {k : κ} {v : α}
    (h : aGet l k = some v) : (k, v) ∈ l := by
  induction l with
  | nil => simp [aGet] at h
  | cons hd tl ih =>
    obtain ⟨k', v'⟩ := hd
    by_cases h0 : k' = k
    · subst h0
      simp [aGet] at h
      simp [h]
    · simp [aGet, h0] at h
      exact List.mem_cons_of_mem _ (ih h)

theorem aGet_none_not_mem_keys {κ α : Type} [DecidableEq κ] {l : List (κ × α)} {k : κ}
    (h : aGet l k = none) : k ∉ l.map Prod.fst := by
  induction l with
  | nil => simp
  | cons hd tl ih =>
    obtain ⟨k', v'⟩ := hd
    by_cases h0 : k' = k
    · simp [aGet, h0] at h
    · simp [aGet, h0] at h
      simp [ih h]
      exact fun hk => h0 hk.symm

theorem aGet_isSome_of_mem_keys {κ α : Type} [DecidableEq κ] {l : List (κ × α)} {k : κ}
    (h : k ∈ l.map Prod.fst) : (aGet l k).isSome := by
  induction l with
  | nil => simp at h
  | cons hd tl ih =>
    obtain ⟨k', v'⟩ := hd
    by_cases h0 : k' = k
    · simp [aGet, h0]
    · rcases List.mem_cons.1 h with h1 | h1
      · exact absurd h1.symm h0
      · simp [aGet, h0, ih h1]

theorem aGet_none_not_mem {κ α : Type} [DecidableEq κ] {l : List (κ × α)} {k : κ}
    (h : aGet l k = none) (x : α) : (k, x) ∉ l := by
  intro hmem
  have : k ∈ l.map Prod.fst := List.mem_map.2 ⟨(k, x), hmem, rfl⟩
  have := aGet_isSome_of_mem_keys this
  rw [h] at this
  simp at this

/-- Keys of `aSet l k v`: unchanged when `k` is present, appended otherwise. -/
theorem keys_aSet_of_aGet_none {κ α : Type} [DecidableEq κ] {l : List (κ × α)} {k : κ} (v : α)
    (h : aGet l k = none) : (aSet l k v).map Prod.fst = l.map Prod.fst ++ [k] := by
  induction l with
  | nil => simp [aSet]
  | cons hd tl ih =>
    obtain ⟨k', v'⟩ := hd
    by_cases h0 : k' = k
    · simp [aGet, h0] at h
    · simp [aGet, h0] at h
      simp [aSet, h0, ih h]

theorem keys_aSet_of_aGet_isSome {κ α : Type} [DecidableEq κ] {l : List (κ × α)} {k : κ} (v : α)
    (h : (aGet l k).isSome) : (aSet l k v).map Prod.fst = l.map Prod.fst := by
  induction l with
  | nil => simp [aGet] at h
  | cons hd tl ih =>
    obtain ⟨k', v'⟩ := hd
    by_cases h0 : k' = k
    · simp [aSet, h0]
    · simp [aGet, h0] at h
      simp [aSet, h0, ih h]

theorem aSet_keys_nodup {κ α : Type} [DecidableEq κ] {l : List (κ × α)} (k : κ) (v : α)
    (h : (l.map Prod.fst).Nodup) : ((aSet l k v).map Prod.fst).Nodup := by
  cases h0 : aGet l k with
  | some w =>
    rw [keys_aSet_of_aGet_isSome v (by simp [h0])]
    exact h
  | none =>
    rw [keys_aSet_of_aGet_none v h0]
    simpa [List.nodup_append] using ⟨h, fun x => aGet_none_not_mem h0 x⟩

/-! ## CommitID and its binary serialisation

`CommitID` is the commit record `{version: int64, hash: bytes}`.  Its wire
format is the protocol-buffer encoding produced by `MarshalBinary` /
consumed by `UnmarshalBinary` in `forest.go`; the message definition itself
is not part of the sources, so the encoding is modelled from the
specification ("deterministic binary encoding", section 3/4.1): a proto3
message with an integer `Version` field (field 1, varint) and a bytes
`Hash` field (field 2, length-delimited), default-valued fields omitted. -/

/-- The commit record for one namespace tree. -/
structure CommitID where
  version : Int
  hash : Bytes
deriving DecidableEq

/-- Reinterpret an `int64` value as a `uint64` (Go's `uint64(v)` cast),
as done by the varint encoder for integer fields. -/
def toU64 (v : Int) : Nat := (v % ((2 : Int) ^ 64)).toNat

/-- Reinterpret a `uint64` value below `2^64` as an `int64`. -/
def ofU64 (n : Nat) : Int := if n < 2 ^ 63 then (n : Int) else (n : Int) - 2 ^ 64

/-- Base-128 varint encoding, written with explicit fuel so that it is
structurally recursive (the fuel `n` itself always suffices). -/
def encVarintF : Nat → Nat → List Nat
  | 0, n => [n % 128]
  | fuel + 1, n => if n < 128 then [n] else (n % 128 + 128) :: encVarintF fuel (n / 128)

/-- Base-128 varint encoding of a natural number. -/
def encVarint (n : Nat) : List Nat := encVarintF n n

/-- Base-128 varint decoding: returns the value and the remaining bytes. -/
def decVarint : List Nat → Option (Nat × List Nat)
  | [] => none
  | b :: rest =>
    if b < 128 then some (b, rest)
    else
      match decVarint rest with
      | none => none
      | some (m, rest2) => some (b - 128 + 128 * m, rest2)

theorem encVarintF_irrel : ∀ n fuel fuel', n ≤ fuel → n ≤ fuel' →
    encVarintF fuel n = encVarintF fuel' n := by
  intro n
  induction n using Nat.strong_induction_on with
  | _ n ih =>
    intro fuel fuel' h h'
    match fuel, fuel' with
    | 0, 0 => rfl
    | 0, f' + 1 =>
      have : n = 0 := by omega
      subst this
      simp [encVarintF]
    | f + 1, 0 =>
      have : n = 0 := by omega
      subst this
      simp [encVarintF]
    | f + 1, f' + 1 =>
      by_cases h128 : n < 128
      · simp [encVarintF, h128]
      · have hn : 0 < n := by omega
        have hdiv : n / 128 < n := Nat.div_lt_self hn (by omega)
        rw [encVarintF, encVarintF, if_neg h128, if_neg h128,
          ih (n / 128) hdiv f f' (by omega) (by omega)]

theorem encVarint_eq (n : Nat) :
    encVarint n = if n < 128 then [n] else (n % 128 + 128) :: encVarint (n / 128) := by
  match n with
  | 0 => simp [encVarint, encVarintF]
  | m + 1 =>
    by_cases h128 : m + 1 < 128
    · simp [encVarint, encVarintF, h128]
    · have hdiv : (m + 1) / 128 < m + 1 := Nat.div_lt_self (by omega) (by omega)
      rw [encVarint, encVarintF, if_neg h128, if_neg h128]
      rw [encVarintF_irrel ((m + 1) / 128) m ((m + 1) / 128) (by omega) (le_refl _)]
      rfl

/-- Decoding inverts encoding, with an arbitrary trailing suffix. -/
theorem decVarint_encVarint (n : Nat) (t : List Nat) :
    decVarint (encVarint n ++ t) = some (n, t) := by
  induction n using Nat.strong_induction_on with
  | _ n ih =>
    rw [encVarint_eq]
    by_cases h : n < 128
    · simp [decVarint, h]
    · have hn : 0 < n := by omega
      have hdiv : n / 128 < n := Nat.div_lt_self hn (by omega)
      have hmod : ¬(n % 128 + 128 < 128) := by omega
      simp only [if_neg h, List.cons_append, decVarint, if_neg hmod, ih (n / 128) hdiv]
      have : n % 128 + 128 - 128 + 128 * (n / 128) = n := by omega
      rw [this]

theorem decVarint_length {l : List Nat} {n : Nat} {r : List Nat}
    (h : decVarint l = some (n, r)) : r.length < l.length := by
  induction l generalizing n r with
  | nil => simp [decVarint] at h
  | cons b rest ih =>
    by_cases hb : b < 128
    · simp [decVarint, hb] at h
      simp [← h.2]
    · simp only [decVarint, if_neg hb] at h
      cases h2 : decVarint rest with
      | none => rw [h2] at h; simp at h
      | some p =>
        obtain ⟨m, rest2⟩ := p
        rw [h2] at h
        simp at h
        have := ih h2
        simp [← h.2]
        omega

/-- Proto3 message decoder for `CommitID`, with fuel (the input length
always suffices, one tag byte being consumed per field).  Field 1
(`0x08`) is the varint `Version`, field 2 (`0x12`) the length-delimited
`Hash`; anything else is malformed. -/
def decFieldsF : Nat → List Nat → CommitID → Option CommitID
  | _, [], acc => some acc
  | 0, _ :: _, _ => none
  | fuel + 1, b :: rest, acc =>
    if b = 8 then
      match decVarint rest with
      | none => none
      | some (n, rest2) => decFieldsF fuel rest2 { acc with version := ofU64 n }
    else if b = 18 then
      match decVarint rest with
      | none => none
      | some (len, rest2) =>
        if len ≤ rest2.length then
          decFieldsF fuel (rest2.drop len) { acc with hash := rest2.take len }
        else none
    else none

/-- The wire encoding of a `CommitID` (proto3: fields with default values
are omitted entirely). -/
def CommitID.encode (c : CommitID) : Bytes :=
  (if toU64 c.version = 0 then [] else 8 :: encVarint (toU64 c.version)) ++
    (if c.hash = [] then [] else 18 :: (encVarint c.hash.length ++ c.hash))

/-- `CommitID.MarshalBinary`.  Modelled from the spec: the underlying
proto buffer returns a nil byte slice when no field was written; `none`
stands for Go's nil slice. -/
def CommitID.marshalBinary (c : CommitID) : Option Bytes :=
  if c.encode = [] then none else some c.encode

/-- `CommitID.UnmarshalBinary` (via the modelled proto3 field decoder). -/
def CommitID.unmarshalBinary (bs : Bytes) : Option CommitID :=
  decFieldsF bs.length bs ⟨0, []⟩

/-- `marshalCommitID` from `forest.go`: encode, normalising a nil result
to an explicit empty byte sequence.  The modelled marshalling is total
(the spec: encoding "never fails on a well-formed CommitID"), so the Go
error branch is dead and the function returns the bytes directly. -/
def marshalCommitID (hash : Bytes) (version : Int) : Bytes :=
  match (CommitID.mk version hash).marshalBinary with
  | none => []
  | some bs => bs

/-- `unmarshalCommitID` from `forest.go`. -/
def unmarshalCommitID (bs : Bytes) : Except String CommitID :=
  match CommitID.unmarshalBinary bs with
  | none => .error "could not unmarshal CommitID"
  | some c => .ok c

theorem toU64_of_nonneg {v : Int} (h0 : 0 ≤ v) (h1 : v < 2 ^ 64) : (toU64 v : Int) = v := by
  unfold toU64
  rw [Int.emod_eq_of_lt h0 (by exact_mod_cast h1)]
  exact Int.toNat_of_nonneg h0

theorem ofU64_toU64 {v : Int} (h0 : 0 ≤ v) (h1 : v < 2 ^ 63) : ofU64 (toU64 v) = v := by
  have h2 : v < 2 ^ 64 := by
    have h : (2 : Int) ^ 63 < 2 ^ 64 := by norm_num
    omega
  have ht : (toU64 v : Int) = v := toU64_of_nonneg h0 h2
  have hlt : toU64 v < 2 ^ 63 := by
    have h3 : ((toU64 v : Int)) < (2 : Int) ^ 63 := ht.trans_lt h1
    have h4 : ((2 ^ 63 : Nat) : Int) = (2 : Int) ^ 63 := by push_cast
    rw [← h4] at h3
    exact Nat.cast_lt.mp h3
  unfold ofU64
  rw [if_pos hlt]
  exact ht

theorem decFieldsF_nil (fuel : Nat) (acc : CommitID) : decFieldsF fuel [] acc = some acc := by
  cases fuel <;> rfl

theorem decFieldsF_irrel : ∀ fuel fuel' bs acc, bs.length ≤ fuel → bs.length ≤ fuel' →
    decFieldsF fuel bs acc = decFieldsF fuel' bs acc := by
  intro fuel
  induction fuel with
  | zero =>
    intro fuel' bs acc h h'
    have : bs = [] := by
      cases bs with
      | nil => rfl
      | cons b r => simp at h
    subst this
    simp [decFieldsF_nil]
  | succ fuel ih =>
    intro fuel' bs acc h h'
    cases bs with
    | nil => simp [decFieldsF_nil]
    | cons b rest =>
      cases fuel' with
      | zero => simp at h'
      | succ f' =>
        simp only [decFieldsF]
        by_cases hb8 : b = 8
        · simp only [hb8, if_pos rfl]
          cases h2 : decVarint rest with
          | none => rfl
          | some p =>
            obtain ⟨n, rest2⟩ := p
            have hl := decVarint_length h2
            exact ih f' rest2 _ (by simp at h; omega) (by simp at h'; omega)
        · simp only [if_neg hb8]
          by_cases hb18 : b = 18
          · simp only [hb18, if_pos rfl]
            cases h2 : decVarint rest with
            | none => rfl
            | some p =>
              obtain ⟨len, rest2⟩ := p
              have hl := decVarint_length h2
              by_cases hlen : len ≤ rest2.length
              · simp only [if_pos hlen]
                exact ih f' (rest2.drop len) _ (by simp at h ⊢; omega) (by simp at h' ⊢; omega)
              · simp [hlen]
          · simp [hb18]

theorem decFields_tag8 (n : Nat) (rest' : List Nat) (acc : CommitID) :
    decFieldsF (8 :: (encVarint n ++ rest')).length (8 :: (encVarint n ++ rest')) acc
      = decFieldsF rest'.length rest' { acc with version := ofU64 n } := by
  simp only [List.length_cons, decFieldsF, if_pos rfl, decVarint_encVarint]
  exact decFieldsF_irrel _ _ _ _ (by simp) (le_refl _)

theorem decFields_tag18_last (hs : List Nat) (acc : CommitID) :
    decFieldsF (18 :: (encVarint hs.length ++ hs)).length (18 :: (encVarint hs.length ++ hs)) acc
      = some { acc with hash := hs } := by
  simp only [List.length_cons, decFieldsF, decVarint_encVarint]
  norm_num
  exact decFieldsF_nil _ _

theorem toU64_eq_zero {v : Int} (h0 : 0 ≤ v) (h1 : v < 2 ^ 63) (hz : toU64 v = 0) : v = 0 := by
  have hv64 : v < 2 ^ 64 := by
    have hp : (2 : Int) ^ 63 < 2 ^ 64 := by norm_num
    omega
  have := toU64_of_nonneg h0 hv64
  rw [hz] at this
  simpa using this.symm

/-- Shared round-trip lemma: decoding an encoded `CommitID` restores it. -/
theorem unmarshal_marshal_eq (h : Bytes) (v : Int) (h0 : 0 ≤ v) (h1 : v < 2 ^ 63) :
    unmarshalCommitID (marshalCommitID h v) = .ok ⟨v, h⟩ := by
  have hofto : ofU64 (toU64 v) = v := ofU64_toU64 h0 h1
  by_cases hz : toU64 v = 0
  · have hv0 : v = 0 := toU64_eq_zero h0 h1 hz
    subst hv0
    by_cases hh : h = []
    · subst hh
      simp [marshalCommitID, CommitID.marshalBinary, CommitID.encode, hz,
        unmarshalCommitID, CommitID.unmarshalBinary, decFieldsF_nil]
    · have henc : (CommitID.mk 0 h).encode = 18 :: (encVarint h.length ++ h) := by
        simp [CommitID.encode, hz, hh]
      simp only [marshalCommitID, CommitID.marshalBinary, henc]
      simp only [if_neg (by simp : ¬(18 :: (encVarint h.length ++ h) = []))]
      simp only [unmarshalCommitID, CommitID.unmarshalBinary, decFields_tag18_last]
  · by_cases hh : h = []
    · subst hh
      have henc : (CommitID.mk v []).encode = 8 :: (encVarint (toU64 v) ++ []) := by
        simp [CommitID.encode, hz]
      simp only [marshalCommitID, CommitID.marshalBinary, henc]
      simp only [if_neg (by simp : ¬(8 :: (encVarint (toU64 v) ++ []) = []))]
      simp only [unmarshalCommitID, CommitID.unmarshalBinary, decFields_tag8]
      simp [decFieldsF_nil, hofto]
    · have henc : (CommitID.mk v h).encode
          = 8 :: (encVarint (toU64 v) ++ (18 :: (encVarint h.length ++ h))) := by
        simp [CommitID.encode, hz, hh]
      simp only [marshalCommitID, CommitID.marshalBinary, henc]
      simp only [if_neg (by simp : ¬(8 :: (encVarint (toU64 v) ++ (18 :: (encVarint h.length ++ h))) = []))]
      simp only [unmarshalCommitID, CommitID.unmarshalBinary, decFields_tag8,
        decFields_tag18_last, hofto]

/-- **C8.** For every version `v ≥ 0` (in the `int64` range) and every byte
sequence `h`, including the empty one, decoding the binary encoding of
`CommitID{version := v, hash := h}` yields the same `CommitID` with no
error: `unmarshalCommitID (marshalCommitID h v) = ok ⟨v, h⟩`. -/
theorem commitID_roundtrip (h : Bytes) (v : Int) (h0 : 0 ≤ v) (h1 : v < 2 ^ 63) :
    unmarshalCommitID (marshalCommitID h v) = .ok ⟨v, h⟩ :=
  unmarshal_marshal_eq h v h0 h1

/-- Witness for C8 at `v = 5`, `h = [1, 2, 3]`. -/
theorem commitID_roundtrip_witness :
    0 ≤ (5 : Int) ∧ (5 : Int) < 2 ^ 63 ∧
      unmarshalCommitID (marshalCommitID [1, 2, 3] 5) = .ok ⟨5, [1, 2, 3]⟩ :=
  ⟨by norm_num, by norm_num, commitID_roundtrip [1, 2, 3] 5 (by norm_num) (by norm_num)⟩

/-- **C9.** Encoding the zero-value `CommitID` (version 0, empty hash)
succeeds and returns a non-nil byte sequence: whenever the underlying
marshalling produces a nil (absent) result — `none` in the model —
`marshalCommitID` normalises it to an explicit empty byte sequence. -/
theorem marshalCommitID_normalises_nil :
    (∀ (h : Bytes) (v : Int), (CommitID.mk v h).marshalBinary = none → marshalCommitID h v = []) ∧
      (CommitID.mk 0 []).marshalBinary = none ∧ marshalCommitID [] 0 = [] := by
  refine ⟨fun h v hnil => ?_, by decide, by decide⟩
  simp [marshalCommitID, hnil]

/-- Witness for C9 at the zero value. -/
theorem marshalCommitID_normalises_nil_witness :
    (CommitID.mk 0 []).marshalBinary = none ∧ marshalCommitID [] 0 = [] :=
  ⟨marshalCommitID_normalises_nil.2.1,
    marshalCommitID_normalises_nil.1 [] 0 marshalCommitID_normalises_nil.2.1⟩

/-! ## The versioned-tree collaborator (`RWTree`) and the backing store

`RWTree` is the per-namespace versioned tree.  Its implementation is repo
code that is not part of the sources under verification, so it is
modelled from the specification's collaborator contract (section 6):
`Get`/`Set`/`Delete` with buffered writes visible to `Get` on the same
instance, `Updated`, `Hash`, `Version`, and the persistence operations
`Load`/`Save`/`GetImmutable` against the shared backing store.  The store
is modelled as a map from a tree's isolated key range (its prefix path)
to its persisted snapshots, one per version; `NewPrefixDB(db, p)` is
rendered as prepending `p` to the key range. -/

/-- Pending buffered writes of a tree: key to `some v` (a buffered `Set`)
or `none` (a buffered `Delete`). -/
abbrev Pend := List (Bytes × Option Bytes)

/-- The shared backing store: per key range, the persisted snapshots
indexed by version. -/
abbrev DB := List (Bytes × List (Int × KV))

/-- Look up the persisted snapshot of one tree at one version. -/
def dbGet (db : DB) (key : Bytes) (version : Int) : Option KV :=
  match aGet db key with
  | none => none
  | some snaps => aGet snaps version

/-- Persist a snapshot of one tree at one version. -/
def dbPut (db : DB) (key : Bytes) (version : Int) (kv : KV) : DB :=
  aSet db key (aSet ((aGet db key).getD []) version kv)

/-- Discard all snapshots of one tree later than `version` (the
destructive part of an overwriting load). -/
def dbDropAfter (db : DB) (key : Bytes) (version : Int) : DB :=
  aSet db key (((aGet db key).getD []).filter (fun p => decide (p.1 ≤ version)))

/-- Modelled from the spec: the state of one `RWTree` instance.
`saved` is the content of the version it is attached to, `pending` the
buffered writes since, `version` its current version.  `failNextSave`
models the environment: when set, the next `Save` of this tree fails
(a backing-store write error). -/
structure RWTree where
  dbKey : Bytes
  saved : KV
  pending : Pend
  version : Int
  failNextSave : Bool
deriving DecidableEq

/-- A fresh, empty tree at version 0 bound to its isolated key range. -/
def newRWTree (dbKey : Bytes) : RWTree :=
  { dbKey := dbKey, saved := [], pending := [], version := 0, failNextSave := false }

/-- `Get`: buffered writes are visible to `Get` on the same instance
(spec section 6); otherwise read the attached version's content. -/
def RWTree.Get (t : RWTree) (k : Bytes) : Option Bytes :=
  match aGet t.pending k with
  | some ov => ov
  | none => aGet t.saved k

/-- `Set`: buffer a write. -/
def RWTree.Set (t : RWTree) (k v : Bytes) : RWTree :=
  { t with pending := aSet t.pending k (some v) }

/-- `Delete`: returns the old visible value and whether a key was removed;
buffers a deletion when the key was visible. -/
def RWTree.Delete (t : RWTree) (k : Bytes) : (Option Bytes × Bool) × RWTree :=
  match t.Get k with
  | some v => ((some v, true), { t with pending := aSet t.pending k none })
  | none => ((none, false), t)

/-- `Updated`: whether buffered writes exist since the last save. -/
def RWTree.Updated (t : RWTree) : Bool := decide (t.pending ≠ [])

/-- Apply buffered writes, in order, to committed content. -/
def applyPend : KV → Pend → KV
  | kv, [] => kv
  | kv, (k, some v) :: r => applyPend (aSet kv k v) r
  | kv, (k, none) :: r => applyPend (aDel kv k) r

/-- `Hash`: a deterministic digest of the attached version and content
(modelled from the spec; only determinism and change-sensitivity of the
Merkle hash matter to the forest layer). -/
def RWTree.Hash (t : RWTree) : Bytes :=
  encVarint (toU64 t.version) ++
    (t.saved.foldr (fun p acc =>
      encVarint p.1.length ++ p.1 ++ encVarint p.2.length ++ p.2 ++ acc) [])

/-- `Version`. -/
def RWTree.Version (t : RWTree) : Int := t.version

/-- The state a tree reaches by a successful `Save`: buffered writes are
folded into the content and the version advances. -/
def RWTree.afterSave (t : RWTree) : RWTree :=
  { t with saved := applyPend t.saved t.pending, pending := [], version := t.version + 1 }

/-- `Save`: persist buffered writes, advance the version, return the new
hash and version.  Fails (leaving tree and store unchanged) when the
environment flag `failNextSave` is set. -/
def RWTree.Save (t : RWTree) (db : DB) : Except String (Bytes × Int) × RWTree × DB :=
  if t.failNextSave then (.error "could not save tree", t, db)
  else
    (.ok (t.afterSave.Hash, t.version + 1), t.afterSave,
      dbPut db t.dbKey (t.version + 1) (applyPend t.saved t.pending))

/-- `Load`: attach to an existing persisted version; `overwriting`
permits discarding any later persisted state.  Fails when the version was
never persisted. -/
def RWTree.Load (t : RWTree) (db : DB) (version : Int) (overwriting : Bool) :
    Except String Unit × RWTree × DB :=
  match dbGet db t.dbKey version with
  | none => (.error "could not load tree", t, db)
  | some kv =>
    (.ok (), { t with saved := kv, pending := [], version := version },
      if overwriting then dbDropAfter db t.dbKey version else db)

/-- `GetImmutable`: an independent read-only snapshot pinned at `version`
(just its content, since a snapshot never changes). -/
def RWTree.GetImmutable (t : RWTree) (db : DB) (version : Int) : Except String KV :=
  match dbGet db t.dbKey version with
  | none => .error "no such version"
  | some kv => .ok kv

/-! ## The LRU tree cache

`treeCache` is a bounded recency-ordered cache (hashicorp golang-lru),
modelled as a most-recent-first association list from prefix to tree
identifier: `Get` moves a hit to the front, `Add` inserts at the front
and evicts the least recently used entry beyond the capacity. -/

/-- LRU lookup: on a hit, the entry moves to the front. -/
def lruGet (c : List (Bytes × Nat)) (k : Bytes) : Option Nat × List (Bytes × Nat) :=
  match aGet c k with
  | none => (none, c)
  | some id => (some id, (k, id) :: aDel c k)

/-- LRU insert: to the front, evicting beyond the capacity. -/
def lruAdd (c : List (Bytes × Nat)) (k : Bytes) (id : Nat) (cap : Nat) : List (Bytes × Nat) :=
  ((k, id) :: aDel c k).take cap

/-! ## MutableForest

Translated from `forest.go`.  Go's `*RWTree` pointers shared between the
tree cache and the dirty map are rendered as identifiers (`Nat`) into the
`heap` component; every stateful operation returns its result together
with the post-state (Go mutates the receiver in place, so the post-state
is meaningful on the error path too).  The `ImmutableForest` embedded in
`MutableForest` holds a reference to the same commits tree, so its fields
(`treeCache`, `cacheSize`, `overwriting`) are inlined here. -/

instance : DecidableEq (Bytes × List (Int × KV)) := fun x y => instDecidableEqProd x y

/-- The state of a `MutableForest` together with the shared backing
store.  `commitsTree` maps a namespace identifier to its marshalled
`CommitID`; its hash and version are the forest's global hash and
version. -/
structure Forest where
  db : DB
  heap : List (Nat × RWTree)
  nextId : Nat
  commitsTree : RWTree
  treeCache : List (Bytes × Nat)
  cacheSize : Nat
  overwriting : Bool
  dirty : List (Bytes × Nat)
  dirtyPrefixes : List Bytes
deriving DecidableEq

/-- The forest constructed by `NewMutableForest` (before the error check
on the cache size): commits tree under the `"c"` key range (byte 99),
namespace trees under `"t"` (byte 116), overwriting loads enabled via
`WithOverwriting`. -/
def mkMutableForest (cacheSize : Nat) : Forest :=
  { db := [], heap := [], nextId := 0,
    commitsTree := newRWTree [99],
    treeCache := [], cacheSize := cacheSize, overwriting := true,
    dirty := [], dirtyPrefixes := [] }

/-- `NewMutableForest`: fails when the LRU cache cannot be constructed
(non-positive size); otherwise the embedded `ImmutableForest` is built
with the `WithOverwriting` option. -/
def NewMutableForest (cacheSize : Nat) : Except String Forest :=
  if cacheSize = 0 then .error "could not create cache"
  else .ok (mkMutableForest cacheSize)

/-- `ImmutableForest.newTree`: a fresh in-memory tree bound to the
namespace's isolated key range (`NewPrefixDB(treeDB, p)`), added to the
tree cache. -/
def Forest.newTree (f : Forest) (p : Bytes) : Nat × Forest :=
  let t := newRWTree (116 :: p)
  let id := f.nextId
  (id, { f with heap := (id, t) :: f.heap, nextId := id + 1,
                treeCache := lruAdd f.treeCache p id f.cacheSize })

/-- `ImmutableForest.commitID`: the commit record stored for `p`, the
zero `CommitID` when the commits tree has no entry. -/
def Forest.commitID (f : Forest) (p : Bytes) : Except String CommitID :=
  match f.commitsTree.Get p with
  | none => .ok ⟨0, []⟩
  | some bs => unmarshalCommitID bs

/-- `ImmutableForest.loadOrCreateTree`. -/
def Forest.loadOrCreateTree (f : Forest) (p : Bytes) : Except String Nat × Forest :=
  match f.newTree p with
  | (id, f1) =>
    match f1.commitID p with
    | .error e => (.error e, f1)
    | .ok cid =>
      if cid.version = 0 then
        -- first time this tree is loaded: leave it fresh and empty
        match f1.newTree p with
        | (id2, f2) => (.ok id2, f2)
      else
        match aGet f1.heap id with
        | none => (.error "nil tree", f1)
        | some t =>
          match t.Load f1.db cid.version f1.overwriting with
          | (.error e, _, _) => (.error e, f1)
          | (.ok _, t', db') => (.ok id, { f1 with heap := aSet f1.heap id t', db := db' })

/-- `ImmutableForest.tree`: the lazy-load/cache path shared by readers
and writers. -/
def Forest.tree (f : Forest) (p : Bytes) : Except String Nat × Forest :=
  match lruGet f.treeCache p with
  | (some id, c') => (.ok id, { f with treeCache := c' })
  | (none, _) => f.loadOrCreateTree p

/-- `ImmutableForest.Reader`. -/
def Forest.Reader (f : Forest) (p : Bytes) : Except String Nat × Forest := f.tree p

/-- `MutableForest.Writer`: the dirty map is consulted first; on a first
acquisition the resolved tree is registered dirty and its prefix appended
to the deterministic dirty-order list. -/
def Forest.Writer (f : Forest) (p : Bytes) : Except String Nat × Forest :=
  match aGet f.dirty p with
  | some id => (.ok id, f)
  | none =>
    match f.tree p with
    | (.error e, f1) => (.error e, f1)
    | (.ok id, f1) =>
      (.ok id, { f1 with dirty := aSet f1.dirty p id,
                         dirtyPrefixes := f1.dirtyPrefixes ++ [p] })

/-- `MutableForest.Delete`: remove `p`'s entry from the commits tree and
return the `CommitID` that was stored there, `none` when there was no
entry. -/
def Forest.Delete (f : Forest) (p : Bytes) : Except String (Option CommitID) × Forest :=
  match f.commitsTree.Delete p with
  | ((some bs, true), ct') =>
    match unmarshalCommitID bs with
    | .error e => (.error e, { f with commitsTree := ct' })
    | .ok cid => (.ok (some cid), { f with commitsTree := ct' })
  | ((_, _), ct') => (.ok none, { f with commitsTree := ct' })

/-- `MutableForest.setCommit`: marshal a `CommitID` and write it into the
commits tree (the modelled marshalling is total, so the Go error branch
is dead). -/
def Forest.setCommit (f : Forest) (p hash : Bytes) (version : Int) : Forest :=
  { f with commitsTree := f.commitsTree.Set p (marshalCommitID hash version) }

/-- `MutableForest.saveTree`: save one namespace tree and record its new
commit in the commits tree. -/
def Forest.saveTree (f : Forest) (p : Bytes) (id : Nat) (t : RWTree) :
    Except String Unit × Forest :=
  match t.Save f.db with
  | (.error e, _, _) => (.error e, f)
  | (.ok (hash, version), t', db') =>
    (.ok (), ({ f with heap := aSet f.heap id t', db := db' }).setCommit p hash version)

/-- The per-namespace loop of `MutableForest.Save`: each dirty tree that
reports `Updated()` is saved; the first failure aborts. -/
def Forest.saveLoop (f : Forest) : List Bytes → Except String Unit × Forest
  | [] => (.ok (), f)
  | p :: rest =>
    match aGet f.dirty p with
    | none => (.error "nil tree", f)
    | some id =>
      match aGet f.heap id with
      | none => (.error "nil tree", f)
      | some t =>
        if t.Updated then
          match f.saveTree p id t with
          | (.error e, f1) => (.error e, f1)
          | (.ok _, f1) => f1.saveLoop rest
        else f.saveLoop rest

/-- `MutableForest.Save`: save every dirty tree that requires it, clear
the dirty map and dirty-order list, then save the commits tree itself and
return its hash and version. -/
def Forest.Save (f : Forest) : Except String (Bytes × Int) × Forest :=
  match f.saveLoop f.dirtyPrefixes with
  | (.error e, f1) => (.error e, f1)
  | (.ok _, f1) =>
    let f2 := { f1 with dirty := [], dirtyPrefixes := [] }
    match f2.commitsTree.Save f2.db with
    | (.error e, ct', db') => (.error e, { f2 with commitsTree := ct', db := db' })
    | (.ok hv, ct', db') => (.ok hv, { f2 with commitsTree := ct', db := db' })

/-- `MutableForest.Hash`: the commits tree's hash is the global hash. -/
def Forest.Hash (f : Forest) : Bytes := f.commitsTree.Hash

/-- `MutableForest.Version`: the commits tree's version is the global
version. -/
def Forest.Version (f : Forest) : Int := f.commitsTree.version

/-! ## Derived read-only forests (`GetImmutable`) -/

/-- An `ImmutableForest` derived by `MutableForest.GetImmutable`: its
commits view is a frozen snapshot and it allocates its own tree
instances (it shares no in-memory trees with the live forest). -/
structure IForest where
  commitsKV : KV
  iheap : List (Nat × RWTree)
  inextId : Nat
  treeCache : List (Bytes × Nat)
  cacheSize : Nat
  overwriting : Bool
deriving DecidableEq

/-- `MutableForest.GetImmutable`: snapshot the commits tree at `version`
and build a read-only forest over the same backing store, without the
overwriting option and with a fresh tree cache. -/
def Forest.GetImmutable (f : Forest) (version : Int) : Except String IForest :=
  match f.commitsTree.GetImmutable f.db version with
  | .error e => .error e
  | .ok kv =>
    if f.cacheSize = 0 then .error "could not create cache"
    else .ok { commitsKV := kv, iheap := [], inextId := 0, treeCache := [],
               cacheSize := f.cacheSize, overwriting := false }

/-- `newTree` on a derived read-only forest. -/
def IForest.newTree (g : IForest) (p : Bytes) : Nat × IForest :=
  let t := newRWTree (116 :: p)
  let id := g.inextId
  (id, { g with iheap := (id, t) :: g.iheap, inextId := id + 1,
                treeCache := lruAdd g.treeCache p id g.cacheSize })

/-- `commitID` on a derived read-only forest (its commits view is a
frozen snapshot). -/
def IForest.commitID (g : IForest) (p : Bytes) : Except String CommitID :=
  match aGet g.commitsKV p with
  | none => .ok ⟨0, []⟩
  | some bs => unmarshalCommitID bs

/-- `loadOrCreateTree` on a derived read-only forest (reads the shared
backing store; its loads are only destructive if `overwriting` is set). -/
def IForest.loadOrCreateTree (g : IForest) (db : DB) (p : Bytes) :
    Except String Nat × IForest × DB :=
  match g.newTree p with
  | (id, g1) =>
    match g1.commitID p with
    | .error e => (.error e, g1, db)
    | .ok cid =>
      if cid.version = 0 then
        match g1.newTree p with
        | (id2, g2) => (.ok id2, g2, db)
      else
        match aGet g1.iheap id with
        | none => (.error "nil tree", g1, db)
        | some t =>
          match t.Load db cid.version g1.overwriting with
          | (.error e, _, _) => (.error e, g1, db)
          | (.ok _, t', db') => (.ok id, { g1 with iheap := aSet g1.iheap id t' }, db')

/-- `tree` on a derived read-only forest. -/
def IForest.tree (g : IForest) (db : DB) (p : Bytes) : Except String Nat × IForest × DB :=
  match lruGet g.treeCache p with
  | (some id, c') => (.ok id, { g with treeCache := c' }, db)
  | (none, _) => g.loadOrCreateTree db p

/-- `Reader` on a derived read-only forest. -/
def IForest.Reader (g : IForest) (db : DB) (p : Bytes) : Except String Nat × IForest × DB :=
  g.tree db p

/-- The value a derived read-only forest at `version` observes for key
`k` of namespace `p`: `GetImmutable`, then `Reader(p)`, then `Get(k)`. -/
def Forest.readAtVersion (f : Forest) (version : Int) (p k : Bytes) :
    Except String (Option Bytes) :=
  match f.GetImmutable version with
  | .error e => .error e
  | .ok g =>
    match g.Reader f.db p with
    | (.error e, _, _) => .error e
    | (.ok id, g', _) =>
      match aGet g'.iheap id with
      | none => .error "nil tree"
      | some t => .ok (t.Get k)

/-! ## Scenario helpers

Caller-side composites used to build concrete forest states: a `Set`
through the handle returned by `Writer` mutates the shared instance on
the heap. -/

/-- `Writer(p)` discarding the handle. -/
def doWriter (f : Forest) (p : Bytes) : Forest := (f.Writer p).2

/-- `Writer(p).Set(k, v)`: mutate the tree instance returned by
`Writer` in place. -/
def doSet (f : Forest) (p k v : Bytes) : Forest :=
  match f.Writer p with
  | (.error _, f1) => f1
  | (.ok id, f1) =>
    match aGet f1.heap id with
    | none => f1
    | some t => { f1 with heap := aSet f1.heap id (t.Set k v) }

/-- `Reader(p)` discarding the handle. -/
def doReader (f : Forest) (p : Bytes) : Forest := (f.Reader p).2

/-- Environment action: make the next `Save` of the tree instance `id`
fail (a backing-store write error at that moment). -/
def failTree (f : Forest) (id : Nat) : Forest :=
  match aGet f.heap id with
  | some t => { f with heap := aSet f.heap id { t with failNextSave := true } }
  | none => f

/-! ## Structural lemmas about the lazy-load path -/

theorem loadOrCreateTree_preserves (f : Forest) (p : Bytes) :
    ((f.loadOrCreateTree p).2).dirty = f.dirty ∧
      ((f.loadOrCreateTree p).2).dirtyPrefixes = f.dirtyPrefixes ∧
      ((f.loadOrCreateTree p).2).commitsTree = f.commitsTree := by
  simp only [Forest.loadOrCreateTree]
  split
  · simp [Forest.newTree]
  · split
    · simp [Forest.newTree]
    · split
      · simp [Forest.newTree]
      · split
        · simp [Forest.newTree]
        · simp [Forest.newTree]

theorem tree_preserves (f : Forest) (p : Bytes) :
    ((f.tree p).2).dirty = f.dirty ∧ ((f.tree p).2).dirtyPrefixes = f.dirtyPrefixes ∧
      ((f.tree p).2).commitsTree = f.commitsTree := by
  unfold Forest.tree
  split
  · simp
  · exact loadOrCreateTree_preserves f p

/-- **C7.** Within one write epoch, repeated `Writer` calls with the same
prefix return the exact same tree instance: a prefix already in the dirty
map is answered from it, with the forest state (in particular the
dirty-order list) completely unchanged; on its first acquisition the
prefix is appended to the dirty-order list, and every subsequent `Writer`
call returns that same instance without further change. -/
theorem writer_idempotent (f : Forest) (p : Bytes) :
    (∀ id, aGet f.dirty p = some id → f.Writer p = (.ok id, f)) ∧
      (aGet f.dirty p = none → ∀ id f1, f.Writer p = (.ok id, f1) →
        f1.dirtyPrefixes = f.dirtyPrefixes ++ [p] ∧ aGet f1.dirty p = some id ∧
          f1.Writer p = (.ok id, f1)) := by
  constructor
  · intro id h
    simp [Forest.Writer, h]
  · intro hnone id f1 hw
    simp only [Forest.Writer, hnone] at hw
    rcases h2 : f.tree p with ⟨r, ft⟩
    rw [h2] at hw
    cases r with
    | error e => simp at hw
    | ok id0 =>
      simp at hw
      obtain ⟨hid, hf1⟩ := hw
      subst hid
      have hp := tree_preserves f p
      rw [h2] at hp
      simp at hp
      constructor
      · rw [← hf1]
        simp [hp.2.1]
      constructor
      · rw [← hf1]
        simp [aGet_aSet_self]
      · rw [← hf1]
        simp [Forest.Writer, aGet_aSet_self]

/-- A small concrete forest used by witnesses. -/
def w10 : Forest := mkMutableForest 10

/-- Witness for C7: first and repeated acquisition of prefix `[1]` on a
fresh forest. -/
theorem writer_idempotent_witness :
    aGet w10.dirty [1] = none ∧
      ((doWriter w10 [1]).dirtyPrefixes = w10.dirtyPrefixes ++ [[1]] ∧
        aGet (doWriter w10 [1]).dirty [1] = some 1 ∧
        (doWriter w10 [1]).Writer [1] = (.ok 1, doWriter w10 [1])) :=
  ⟨by decide, (writer_idempotent w10 [1]).2 (by decide) 1 (doWriter w10 [1]) (by decide)⟩

/-- **C6.** `Delete(p)` removes `p`'s commits-tree entry and returns the
decoded `CommitID` stored there with no error (stated for well-formed
entries, i.e. entries written by `setCommit`, the only writer of the
commits tree); when there is no entry it returns `nil, nil` and leaves
the forest unchanged.  In both cases the dirty map and dirty-order list
are untouched. -/
theorem delete_semantics (f : Forest) (p : Bytes) :
    (∀ (h : Bytes) (v : Int), 0 ≤ v → v < 2 ^ 63 →
        f.commitsTree.Get p = some (marshalCommitID h v) →
        (f.Delete p).1 = .ok (some ⟨v, h⟩) ∧
          ((f.Delete p).2).commitsTree.Get p = none ∧
          ((f.Delete p).2).dirty = f.dirty ∧
          ((f.Delete p).2).dirtyPrefixes = f.dirtyPrefixes) ∧
      (f.commitsTree.Get p = none → f.Delete p = (.ok none, f)) := by
  constructor
  · intro h v h0 h1 hget
    have hrt := unmarshal_marshal_eq h v h0 h1
    simp only [Forest.Delete, RWTree.Delete, hget, hrt]
    simp [RWTree.Get, aGet_aSet_self]
  · intro hget
    simp only [Forest.Delete, RWTree.Delete, hget]

/-- A forest with one committed namespace `[1]` (key `[5]` set to `[6]`,
then saved), used by witnesses. -/
def c6f : Forest := ((doSet (mkMutableForest 10) [1] [5] [6]).Save).2

/-- Witness for C6: deleting the committed namespace `[1]` returns its
stored `CommitID`; deleting the unknown namespace `[2]` returns nothing
and changes nothing. -/
theorem delete_semantics_witness :
    (c6f.commitsTree.Get [1] = some (marshalCommitID [1, 1, 5, 1, 6] 1) ∧
        (c6f.Delete [1]).1 = .ok (some ⟨1, [1, 1, 5, 1, 6]⟩) ∧
        ((c6f.Delete [1]).2).commitsTree.Get [1] = none ∧
        ((c6f.Delete [1]).2).dirty = c6f.dirty ∧
        ((c6f.Delete [1]).2).dirtyPrefixes = c6f.dirtyPrefixes) ∧
      (c6f.commitsTree.Get [2] = none ∧ c6f.Delete [2] = (.ok none, c6f)) :=
  ⟨⟨by decide, (delete_semantics c6f [1]).1 [1, 1, 5, 1, 6] 1 (by norm_num) (by norm_num)
      (by decide)⟩,
    ⟨by decide, (delete_semantics c6f [2]).2 (by decide)⟩⟩

/-- **C5 (amended).** For every prefix `p` with no commits-tree entry
*and not present in the tree cache*, `Reader(p)` returns a valid, fresh,
empty tree pinned at version 0 rather than an error, and never attempts
to load a version from the backing store (the store is unchanged).  The
cache-miss proviso is forced: see `reader_lazy_create_counterexample`. -/
theorem reader_lazy_create (f : Forest) (p : Bytes)
    (h1 : f.commitsTree.Get p = none) (h2 : aGet f.treeCache p = none) :
    (f.Reader p).1 = .ok (f.nextId + 1) ∧
      aGet ((f.Reader p).2).heap (f.nextId + 1) = some (newRWTree (116 :: p)) ∧
      ((f.Reader p).2).db = f.db := by
  unfold Forest.Reader Forest.tree
  have hl : lruGet f.treeCache p = (none, f.treeCache) := by simp [lruGet, h2]
  rw [hl]
  simp [Forest.loadOrCreateTree, Forest.newTree, Forest.commitID, h1, aGet]

/-- The forest of `c6f` after `Delete [1]`: the commits tree has no entry
for `[1]`, but the namespace's saved tree instance is still cached. -/
def c5f : Forest := (c6f.Delete [1]).2

/-- **C5, counterexample to the claim as stated.**  In `c5f` the prefix
`[1]` has no entry in the commits tree, yet `Reader [1]` returns the
cached instance pinned at version 1 with non-empty content — not an
empty tree pinned at version 0. -/
theorem reader_lazy_create_counterexample :
    c5f.commitsTree.Get [1] = none ∧
      (c5f.Reader [1]).1 = .ok 1 ∧
      aGet ((c5f.Reader [1]).2).heap 1 =
        some { dbKey := [116, 1], saved := [([5], [6])], pending := [], version := 1,
               failNextSave := false } := by decide

/-- Witness for C5 (amended): a never-seen prefix on a fresh forest. -/
theorem reader_lazy_create_witness :
    (mkMutableForest 10).commitsTree.Get [1] = none ∧
      aGet (mkMutableForest 10).treeCache [1] = none ∧
      (((mkMutableForest 10).Reader [1]).1 = .ok 1 ∧
        aGet (((mkMutableForest 10).Reader [1]).2).heap 1 = some (newRWTree [116, 1]) ∧
        (((mkMutableForest 10).Reader [1]).2).db = (mkMutableForest 10).db) :=
  ⟨by decide, by decide, reader_lazy_create (mkMutableForest 10) [1] (by decide) (by decide)⟩

theorem load_db_of_not_overwriting (t : RWTree) (db : DB) (v : Int) :
    ((t.Load db v false).2).2 = db := by
  unfold RWTree.Load
  split
  · rfl
  · rfl

theorem iforest_reader_db (g : IForest) (hov : g.overwriting = false) (db : DB) (p : Bytes) :
    ((g.Reader db p).2).2 = db := by
  unfold IForest.Reader IForest.tree
  split
  · rfl
  · simp only [IForest.loadOrCreateTree]
    rw [show ((g.newTree p).2).overwriting = false by simp [IForest.newTree, hov]]
    split
    · rfl
    · rename_i cid hcid
      split
      · rfl
      · split
        · rfl
        · rename_i t ht
          split
          · rfl
          · rename_i a t' db' heq
            have h5 := load_db_of_not_overwriting t db cid.version
            rw [heq] at h5
            exact h5

/-- **C10.** `NewMutableForest` builds its embedded `ImmutableForest`
with overwriting loads enabled (`WithOverwriting`) and empty caches,
whereas `GetImmutable` builds the derived read-only forest without the
overwriting option and with a freshly created, empty tree cache and no
in-memory tree instances (so it shares none with the live forest), and
its reads never perform a destructive (overwriting) load: they leave the
backing store untouched. -/
theorem forest_construction_options (c : Nat) (f f' : Forest) (w : Int) (g : IForest) :
    (NewMutableForest c = .ok f →
        f.overwriting = true ∧ f.treeCache = [] ∧ f.heap = [] ∧ f.dirty = []) ∧
      (f'.GetImmutable w = .ok g →
        g.overwriting = false ∧ g.treeCache = [] ∧ g.iheap = [] ∧
          ∀ (p : Bytes) (db : DB), ((g.Reader db p).2).2 = db) := by
  constructor
  · intro h
    unfold NewMutableForest at h
    by_cases hc : c = 0
    · simp [hc] at h
    · simp [hc] at h
      rw [← h]
      simp [mkMutableForest]
  · intro h
    unfold Forest.GetImmutable at h
    rcases h2 : f'.commitsTree.GetImmutable f'.db w with e | kv
    · rw [h2] at h
      simp at h
    · rw [h2] at h
      by_cases hc : f'.cacheSize = 0
      · simp [hc] at h
      · simp [hc] at h
        rw [← h]
        refine ⟨rfl, rfl, rfl, ?_⟩
        intro p db
        exact iforest_reader_db _ rfl db p

/-- The read-only forest derived from `c6f` at version 1. -/
def c10g : IForest :=
  { commitsKV := [([1], marshalCommitID [1, 1, 5, 1, 6] 1)], iheap := [], inextId := 0,
    treeCache := [], cacheSize := 10, overwriting := false }

/-- Witness for C10: a fresh mutable forest and the read-only view of
`c6f` at version 1. -/
theorem forest_construction_options_witness :
    (NewMutableForest 10 = .ok (mkMutableForest 10) ∧ c6f.GetImmutable 1 = .ok c10g) ∧
      ((mkMutableForest 10).overwriting = true ∧ (mkMutableForest 10).treeCache = [] ∧
        (mkMutableForest 10).heap = [] ∧ (mkMutableForest 10).dirty = []) ∧
      (c10g.overwriting = false ∧ c10g.treeCache = [] ∧ c10g.iheap = [] ∧
        ∀ (p : Bytes) (db : DB), ((c10g.Reader db p).2).2 = db) :=
  ⟨⟨by decide, by decide⟩,
    (forest_construction_options 10 (mkMutableForest 10) c6f 1 c10g).1 (by decide),
    (forest_construction_options 10 (mkMutableForest 10) c6f 1 c10g).2 (by decide)⟩

/-- **C4 (amended).** With `p` dirty (`Writer(p)` already returned the
instance `id`/`t`), after `Writer(p).Set(k, v)` and before the next
`Save`: `Writer(p)` returns the same instance, whose `Get(k) = v`; a
fresh `Reader(p)` from the same forest instance also observes `v`
*provided `p` is still present in the tree cache mapped to that
instance* (LRU eviction can remove it — see
`write_buffering_counterexample`); and a derived read-only forest at any
prior version is unaffected by the buffered write: it reads exactly what
it read before the `Set`. -/
theorem write_buffering (f : Forest) (p k v : Bytes) (id : Nat) (t : RWTree)
    (hd : aGet f.dirty p = some id) (ht : aGet f.heap id = some t) :
    (doSet f p k v).Writer p = (.ok id, doSet f p k v) ∧
      aGet (doSet f p k v).heap id = some (t.Set k v) ∧
      (t.Set k v).Get k = some v ∧
      (aGet f.treeCache p = some id →
        ((doSet f p k v).Reader p).1 = .ok id ∧
          aGet (((doSet f p k v).Reader p).2).heap id = some (t.Set k v)) ∧
      (∀ (w : Int) (k' : Bytes),
        (doSet f p k v).readAtVersion w p k' = f.readAtVersion w p k') := by
  have hds : doSet f p k v = { f with heap := aSet f.heap id (t.Set k v) } := by
    simp [doSet, Forest.Writer, hd, ht]
  rw [hds]
  refine ⟨?_, ?_, ?_, ?_, ?_⟩
  · simp [Forest.Writer, hd]
  · exact aGet_aSet_self _ _ _
  · simp [RWTree.Get, RWTree.Set, aGet_aSet_self]
  · intro hc
    unfold Forest.Reader Forest.tree
    have hl : lruGet f.treeCache p = (some id, (p, id) :: aDel f.treeCache p) := by
      simp [lruGet, hc]
    simp only [hl]
    simp [aGet_aSet_self]
  · intro w k'
    rfl

/-- A forest with cache capacity 1 where `Reader [2]` evicted the dirty
instance of `[1]` from the tree cache before `Writer([1]).Set([5], [6])`
buffered a write on it. -/
def c4f : Forest := doSet (doReader (doWriter (mkMutableForest 1) [1]) [2]) [1] [5] [6]

/-- **C4, counterexample to the claim as stated.**  In `c4f` the writer
instance of `[1]` (id 1) holds the buffered value `[6]` for key `[5]`,
but a fresh `Reader [1]` on the same forest instance resolves a brand
new empty instance (id 5) that does not observe it. -/
theorem write_buffering_counterexample :
    ((c4f.Writer [1]).1 = .ok 1 ∧
        (aGet c4f.heap 1).map (fun t => t.Get [5]) = some (some [6])) ∧
      (c4f.Reader [1]).1 = .ok 5 ∧
        aGet ((c4f.Reader [1]).2).heap 5 = some (newRWTree [116, 1]) ∧
        (newRWTree [116, 1]).Get [5] = none := by decide

/-- A fresh forest whose prefix `[1]` was just acquired for writing. -/
def c4w : Forest := doWriter (mkMutableForest 10) [1]

/-- Witness for C4 (amended) on `c4w`. -/
theorem write_buffering_witness :
    aGet c4w.dirty [1] = some 1 ∧ aGet c4w.heap 1 = some (newRWTree [116, 1]) ∧
      ((doSet c4w [1] [5] [6]).Writer [1] = (.ok 1, doSet c4w [1] [5] [6]) ∧
        aGet (doSet c4w [1] [5] [6]).heap 1 = some ((newRWTree [116, 1]).Set [5] [6]) ∧
        ((newRWTree [116, 1]).Set [5] [6]).Get [5] = some [6] ∧
        (aGet c4w.treeCache [1] = some 1 →
          ((doSet c4w [1] [5] [6]).Reader [1]).1 = .ok 1 ∧
            aGet (((doSet c4w [1] [5] [6]).Reader [1]).2).heap 1 =
              some ((newRWTree [116, 1]).Set [5] [6])) ∧
        (∀ (w : Int) (k' : Bytes),
          (doSet c4w [1] [5] [6]).readAtVersion w [1] k' = c4w.readAtVersion w [1] k')) :=
  ⟨by decide, by decide,
    write_buffering c4w [1] [5] [6] 1 (newRWTree [116, 1]) (by decide) (by decide)⟩

theorem hash_congr {t s : RWTree} (hv : t.version = s.version) (hs : t.saved = s.saved) :
    t.Hash = s.Hash := by
  unfold RWTree.Hash
  rw [hv, hs]

theorem saveTree_preserves (f : Forest) (p : Bytes) (id : Nat) (t : RWTree) :
    ((f.saveTree p id t).2).dirty = f.dirty ∧
      ((f.saveTree p id t).2).dirtyPrefixes = f.dirtyPrefixes ∧
      ((f.saveTree p id t).2).commitsTree.version = f.commitsTree.version ∧
      ((f.saveTree p id t).2).commitsTree.saved = f.commitsTree.saved ∧
      ((f.saveTree p id t).2).commitsTree.dbKey = f.commitsTree.dbKey ∧
      ((f.saveTree p id t).2).commitsTree.failNextSave = f.commitsTree.failNextSave := by
  unfold Forest.saveTree
  split
  · exact ⟨rfl, rfl, rfl, rfl, rfl, rfl⟩
  · simp [Forest.setCommit, RWTree.Set]

/-- The per-namespace save loop touches only the heap, the store and the
commits tree's *pending* writes: the dirty bookkeeping and the commits
tree's saved content, version (and hence hash) are untouched. -/
theorem saveLoop_preserves (ps : List Bytes) (f : Forest) :
    ((f.saveLoop ps).2).dirty = f.dirty ∧ ((f.saveLoop ps).2).dirtyPrefixes = f.dirtyPrefixes ∧
      ((f.saveLoop ps).2).commitsTree.version = f.commitsTree.version ∧
      ((f.saveLoop ps).2).commitsTree.saved = f.commitsTree.saved ∧
      ((f.saveLoop ps).2).commitsTree.dbKey = f.commitsTree.dbKey ∧
      ((f.saveLoop ps).2).commitsTree.failNextSave = f.commitsTree.failNextSave := by
  induction ps generalizing f with
  | nil => exact ⟨rfl, rfl, rfl, rfl, rfl, rfl⟩
  | cons p rest ih =>
    simp only [Forest.saveLoop]
    split
    · exact ⟨rfl, rfl, rfl, rfl, rfl, rfl⟩
    · rename_i id hid
      split
      · exact ⟨rfl, rfl, rfl, rfl, rfl, rfl⟩
      · rename_i t htp
        split
        · rcases hst : f.saveTree p id t with ⟨r, f1⟩
          have hp := saveTree_preserves f p id t
          rw [hst] at hp
          simp only at hp
          cases r with
          | error e => exact hp
          | ok u =>
            have hp2 := ih f1
            refine ⟨?_, ?_, ?_, ?_, ?_, ?_⟩
            · rw [hp2.1, hp.1]
            · rw [hp2.2.1, hp.2.1]
            · rw [hp2.2.2.1, hp.2.2.1]
            · rw [hp2.2.2.2.1, hp.2.2.2.1]
            · rw [hp2.2.2.2.2.1, hp.2.2.2.2.1]
            · rw [hp2.2.2.2.2.2, hp.2.2.2.2.2]
        · exact ih f

/-- **C1 (amended).** If the per-namespace save phase of `Save` fails,
`Save` returns the error without saving the commits tree: the forest's
global version and hash are unchanged and the dirty map and dirty-order
list retain exactly their pre-`Save` membership, so a retried `Save`
reattempts exactly the same namespaces.  (Contrary to the claim as
stated, the commits tree may already have been *touched*: commit entries
for namespaces saved earlier in the same call remain buffered in it —
see `save_failure_counterexample`.) -/
theorem save_failure_preserves (f : Forest) (e : String)
    (herr : (f.saveLoop f.dirtyPrefixes).1 = .error e) :
    (f.Save).1 = .error e ∧
      ((f.Save).2).dirty = f.dirty ∧ ((f.Save).2).dirtyPrefixes = f.dirtyPrefixes ∧
      ((f.Save).2).Version = f.Version ∧ ((f.Save).2).Hash = f.Hash := by
  unfold Forest.Save
  rcases h2 : f.saveLoop f.dirtyPrefixes with ⟨r, f1⟩
  rw [h2] at herr
  simp only at herr
  subst herr
  have hp := saveLoop_preserves f.dirtyPrefixes f
  rw [h2] at hp
  simp only at hp
  exact ⟨rfl, hp.1, hp.2.1, hp.2.2.1, hash_congr hp.2.2.1 hp.2.2.2.1⟩

/-- Two dirty namespaces `[1]`, `[2]`; the environment makes the save of
`[2]`'s tree (instance 3) fail. -/
def c1Forest : Forest :=
  failTree (doSet (doSet (mkMutableForest 10) [1] [7] [8]) [2] [7] [9]) 3

/-- **C1, counterexample to the claim as stated.**  The save of dirty
namespace `[2]` fails and `Save` returns the error, but the commits tree
has been touched before the failure: the commit entry of namespace `[1]`
(saved earlier in the same call) is buffered in it. -/
theorem save_failure_counterexample :
    (c1Forest.saveLoop c1Forest.dirtyPrefixes).1 = .error "could not save tree" ∧
      (c1Forest.Save).1 = .error "could not save tree" ∧
      ((c1Forest.Save).2).commitsTree ≠ c1Forest.commitsTree ∧
      ((c1Forest.Save).2).commitsTree.pending =
        [([1], some (marshalCommitID [1, 1, 7, 1, 8] 1))] ∧
      c1Forest.commitsTree.pending = [] := by decide

/-- Witness for C1 (amended) on `c1Forest`. -/
theorem save_failure_witness :
    (c1Forest.saveLoop c1Forest.dirtyPrefixes).1 = .error "could not save tree" ∧
      ((c1Forest.Save).1 = .error "could not save tree" ∧
        ((c1Forest.Save).2).dirty = c1Forest.dirty ∧
        ((c1Forest.Save).2).dirtyPrefixes = c1Forest.dirtyPrefixes ∧
        ((c1Forest.Save).2).Version = c1Forest.Version ∧
        ((c1Forest.Save).2).Hash = c1Forest.Hash) :=
  ⟨by decide, save_failure_preserves c1Forest "could not save tree" (by decide)⟩

/-! ## C2: deterministic dirty-fold order

A caller-side operation language: each operation is a `Writer`
acquisition, possibly followed by a `Set` through the returned handle.
Running a fixed operation sequence is a pure function of the initial
state, and the dirty-order list it produces is exactly the
first-acquisition order of the sequence. -/

inductive FOp where
  | writer (p : Bytes)
  | setKey (p k v : Bytes)
deriving DecidableEq

def FOp.pre : FOp → Bytes
  | .writer p => p
  | .setKey p _ _ => p

def Forest.runOp (f : Forest) : FOp → Bool × Forest
  | .writer p =>
    match f.Writer p with
    | (.ok _, f1) => (true, f1)
    | (.error _, f1) => (false, f1)
  | .setKey p k v =>
    match f.Writer p with
    | (.error _, f1) => (false, f1)
    | (.ok id, f1) =>
      match aGet f1.heap id with
      | none => (false, f1)
      | some t => (true, { f1 with heap := aSet f1.heap id (t.Set k v) })

def Forest.run (f : Forest) : List FOp → Bool × Forest
  | [] => (true, f)
  | op :: rest =>
    match f.runOp op with
    | (ok1, f1) =>
      match f1.run rest with
      | (ok2, f2) => (ok1 && ok2, f2)

def firstAcquired : List Bytes → List FOp → List Bytes
  | _, [] => []
  | seen, op :: rest =>
    if op.pre ∈ seen then firstAcquired seen rest
    else op.pre :: firstAcquired (op.pre :: seen) rest

theorem firstAcquired_congr (s1 s2 : List Bytes) (ops : List FOp)
    (h : ∀ x, x ∈ s1 ↔ x ∈ s2) : firstAcquired s1 ops = firstAcquired s2 ops := by
  induction ops generalizing s1 s2 with
  | nil => rfl
  | cons op rest ih =>
    simp only [firstAcquired]
    by_cases hm : op.pre ∈ s1
    · rw [if_pos hm, if_pos ((h _).1 hm)]
      exact ih s1 s2 h
    · rw [if_neg hm, if_neg (fun hc => hm ((h _).2 hc))]
      rw [ih (op.pre :: s1) (op.pre :: s2) (by intro x; simp [h x])]

theorem writer_dirty_effect (f : Forest) (p : Bytes) :
    (∀ id, aGet f.dirty p = some id → f.Writer p = (.ok id, f)) ∧
      (aGet f.dirty p = none →
        (∀ e f1, f.Writer p = (.error e, f1) →
          f1.dirty = f.dirty ∧ f1.dirtyPrefixes = f.dirtyPrefixes) ∧
        (∀ id f1, f.Writer p = (.ok id, f1) →
          f1.dirty = aSet f.dirty p id ∧ f1.dirtyPrefixes = f.dirtyPrefixes ++ [p])) := by
  constructor
  · intro id h
    simp [Forest.Writer, h]
  · intro hnone
    constructor
    · intro e f1 hw
      simp only [Forest.Writer, hnone] at hw
      rcases h2 : f.tree p with ⟨r, ft⟩
      rw [h2] at hw
      cases r with
      | error e0 =>
        simp at hw
        have hp := tree_preserves f p
        rw [h2] at hp
        simp at hp
        rw [← hw.2]
        exact ⟨hp.1, hp.2.1⟩
      | ok id0 => simp at hw
    · intro id f1 hw
      simp only [Forest.Writer, hnone] at hw
      rcases h2 : f.tree p with ⟨r, ft⟩
      rw [h2] at hw
      cases r with
      | error e => simp at hw
      | ok id0 =>
        simp at hw
        have hp := tree_preserves f p
        rw [h2] at hp
        simp at hp
        rw [← hw.2, hw.1]
        simp [hp.1, hp.2.1]

theorem runOp_dirty (f : Forest) (op : FOp) (hok : (f.runOp op).1 = true) :
    ((aGet f.dirty op.pre).isSome ∧ ((f.runOp op).2).dirty = f.dirty ∧
        ((f.runOp op).2).dirtyPrefixes = f.dirtyPrefixes) ∨
      (aGet f.dirty op.pre = none ∧ ∃ id, ((f.runOp op).2).dirty = aSet f.dirty op.pre id ∧
        ((f.runOp op).2).dirtyPrefixes = f.dirtyPrefixes ++ [op.pre]) := by
  cases op with
  | writer p =>
    rcases hd : aGet f.dirty p with _ | id
    · rcases hw : f.Writer p with ⟨r, f1⟩
      cases r with
      | error e =>
        have hro : f.runOp (.writer p) = (false, f1) := by simp [Forest.runOp, hw]
        rw [hro] at hok
        simp at hok
      | ok id0 =>
        have hro : f.runOp (.writer p) = (true, f1) := by simp [Forest.runOp, hw]
        rw [hro]
        right
        have he := ((writer_dirty_effect f p).2 hd).2 id0 f1 hw
        exact ⟨hd, id0, he.1, he.2⟩
    · have hw := (writer_dirty_effect f p).1 id hd
      have hro : f.runOp (.writer p) = (true, f) := by simp [Forest.runOp, hw]
      rw [hro]
      left
      simp [FOp.pre, hd]
  | setKey p k v =>
    rcases hd : aGet f.dirty p with _ | id
    · rcases hw : f.Writer p with ⟨r, f1⟩
      cases r with
      | error e =>
        have hro : f.runOp (.setKey p k v) = (false, f1) := by simp [Forest.runOp, hw]
        rw [hro] at hok
        simp at hok
      | ok id0 =>
        rcases hh : aGet f1.heap id0 with _ | t
        · have hro : f.runOp (.setKey p k v) = (false, f1) := by
            simp [Forest.runOp, hw, hh]
          rw [hro] at hok
          simp at hok
        · have hro : f.runOp (.setKey p k v) =
              (true, { f1 with heap := aSet f1.heap id0 (t.Set k v) }) := by
            simp [Forest.runOp, hw, hh]
          rw [hro]
          right
          have he := ((writer_dirty_effect f p).2 hd).2 id0 f1 hw
          exact ⟨hd, id0, he.1, he.2⟩
    · have hw := (writer_dirty_effect f p).1 id hd
      rcases hh : aGet f.heap id with _ | t
      · have hro : f.runOp (.setKey p k v) = (false, f) := by simp [Forest.runOp, hw, hh]
        rw [hro] at hok
        simp at hok
      · have hro : f.runOp (.setKey p k v) =
            (true, { f with heap := aSet f.heap id (t.Set k v) }) := by
          simp [Forest.runOp, hw, hh]
        rw [hro]
        left
        simp [FOp.pre, hd]

theorem run_dirtyPrefixes (ops : List FOp) (f : Forest) (hok : (f.run ops).1 = true) :
    ((f.run ops).2).dirtyPrefixes =
      f.dirtyPrefixes ++ firstAcquired (f.dirty.map Prod.fst) ops := by
  induction ops generalizing f with
  | nil => simp [Forest.run, firstAcquired]
  | cons op rest ih =>
    rcases hop : f.runOp op with ⟨ok1, f1⟩
    rcases hrr : f1.run rest with ⟨ok2, f2⟩
    have hrun : f.run (op :: rest) = (ok1 && ok2, f2) := by
      simp [Forest.run, hop, hrr]
    rw [hrun] at hok ⊢
    simp at hok
    have hok1 : (f.runOp op).1 = true := by rw [hop]; exact hok.1
    have hok2 : (f1.run rest).1 = true := by rw [hrr]; exact hok.2
    have hd := runOp_dirty f op hok1
    rw [hop] at hd
    simp only at hd
    have ihf := ih f1 hok2
    rw [hrr] at ihf
    simp only at ihf
    rcases hd with ⟨hsome, hdeq, hpeq⟩ | ⟨hnone, id, hdeq, hpeq⟩
    · have hmem : op.pre ∈ f.dirty.map Prod.fst := by
        rcases ho : aGet f.dirty op.pre with _ | id0
        · rw [ho] at hsome; simp at hsome
        · exact List.mem_map.2 ⟨(op.pre, id0), mem_of_aGet ho, rfl⟩
      simp only [firstAcquired]
      rw [if_pos hmem]
      rw [ihf, hdeq, hpeq]
    · have hmem : op.pre ∉ f.dirty.map Prod.fst := aGet_none_not_mem_keys hnone
      simp only [firstAcquired]
      rw [if_neg hmem]
      rw [ihf, hdeq, hpeq]
      rw [keys_aSet_of_aGet_none id hnone]
      rw [firstAcquired_congr (f.dirty.map Prod.fst ++ [op.pre]) (op.pre :: f.dirty.map Prod.fst) rest (by intro x; simp; tauto)]
      simp

/-- **C2.** For a fixed initial state and a fixed sequence of `Writer`
acquisitions and key mutations (all of which succeed), the dirty-order
list — the order in which `Save` folds namespaces into the commits
tree — is exactly the order in which the prefixes were first obtained
via `Writer` in the epoch, and two runs of the same sequence from the
same state produce the identical `Save` result (hash and version):
`Save` is deterministic. -/
theorem save_order_deterministic (f g : Forest) (ops : List FOp)
    (hclean : f.dirty = [] ∧ f.dirtyPrefixes = [])
    (hok : (f.run ops).1 = true) (hfg : g = f) :
    ((f.run ops).2).dirtyPrefixes = firstAcquired [] ops ∧
      ((g.run ops).2).Save = ((f.run ops).2).Save := by
  constructor
  · have h := run_dirtyPrefixes ops f hok
    rw [hclean.1, hclean.2] at h
    simpa using h
  · rw [hfg]

/-- Concrete operation sequence for the C2 witness. -/
def c2ops : List FOp := [.writer [1], .setKey [2] [5] [6], .writer [1], .setKey [1] [5] [7]]

/-- Witness for C2 on a fresh forest and `c2ops` (first-acquisition
order `[[1], [2]]`). -/
theorem save_order_deterministic_witness :
    ((mkMutableForest 4).dirty = [] ∧ (mkMutableForest 4).dirtyPrefixes = []) ∧
      ((mkMutableForest 4).run c2ops).1 = true ∧
      ((((mkMutableForest 4).run c2ops).2).dirtyPrefixes = firstAcquired [] c2ops ∧
        (((mkMutableForest 4).run c2ops).2).Save = (((mkMutableForest 4).run c2ops).2).Save) :=
  ⟨⟨rfl, rfl⟩, by decide,
    save_order_deterministic (mkMutableForest 4) (mkMutableForest 4) c2ops ⟨rfl, rfl⟩ (by decide) rfl⟩
/-! ## C3: a successful Save -/

theorem aGet_aDel_ne {κ α : Type} [DecidableEq κ] (l : List (κ × α)) (k k' : κ)
    (h : k ≠ k') : aGet (aDel l k) k' = aGet l k' := by
  induction l with
  | nil => simp [aDel]
  | cons hd tl ih =>
    obtain ⟨k0, v0⟩ := hd
    by_cases h0 : k0 = k
    · subst h0
      simp [aDel, aGet, h]
    · simp only [aDel, if_neg h0, aGet_cons]
      by_cases h1 : k0 = k'
      · simp [h1]
      · simp [h1, ih]

theorem applyPend_aGet_not_mem (pend : Pend) (kv : KV) (p : Bytes)
    (h : p ∉ pend.map Prod.fst) : aGet (applyPend kv pend) p = aGet kv p := by
  induction pend generalizing kv with
  | nil => rfl
  | cons hd tl ih =>
    obtain ⟨k, ov⟩ := hd
    simp at h
    push_neg at h
    obtain ⟨hk, htl⟩ := h
    have hk' : k ≠ p := fun hc => hk hc.symm
    cases ov with
    | some v =>
      simp only [applyPend]
      rw [ih _ (by simpa using htl), aGet_aSet_ne _ _ _ _ hk']
    | none =>
      simp only [applyPend]
      rw [ih _ (by simpa using htl), aGet_aDel_ne _ _ _ hk']

theorem applyPend_aGet_some (pend : Pend) (kv : KV) (p : Bytes) (bs : Bytes)
    (hnd : (pend.map Prod.fst).Nodup) (h : aGet pend p = some (some bs)) :
    aGet (applyPend kv pend) p = some bs := by
  induction pend generalizing kv with
  | nil => simp [aGet] at h
  | cons hd tl ih =>
    obtain ⟨k, ov⟩ := hd
    rw [List.map_cons, List.nodup_cons] at hnd
    by_cases hk : k = p
    · subst hk
      simp [aGet] at h
      subst h
      simp only [applyPend]
      rw [applyPend_aGet_not_mem _ _ _ hnd.1, aGet_aSet_self]
    · simp [aGet, hk] at h
      cases ov with
      | some v =>
        simp only [applyPend]
        exact ih _ hnd.2 h
      | none =>
        simp only [applyPend]
        exact ih _ hnd.2 h

theorem rwtree_save_ok {t : RWTree} {db : DB} {hv : Bytes × Int} {t' : RWTree} {db' : DB}
    (h : t.Save db = (.ok hv, t', db')) :
    t.failNextSave = false ∧ hv = (t.afterSave.Hash, t.version + 1) ∧ t' = t.afterSave := by
  unfold RWTree.Save at h
  by_cases hf : t.failNextSave
  · rw [if_pos hf] at h
    simp at h
  · rw [if_neg hf] at h
    rw [Bool.not_eq_true] at hf
    simp at h
    exact ⟨hf, h.1.symm, h.2.1.symm⟩

theorem saveTree_ok {f : Forest} {q : Bytes} {idq : Nat} {tq : RWTree} {u : Unit} {f1 : Forest}
    (hst : f.saveTree q idq tq = (.ok u, f1)) :
    tq.failNextSave = false ∧
      f1.commitsTree.pending =
        aSet f.commitsTree.pending q (some (marshalCommitID tq.afterSave.Hash (tq.version + 1))) ∧
      f1.heap = aSet f.heap idq tq.afterSave ∧ f1.dirty = f.dirty ∧
      f1.dirtyPrefixes = f.dirtyPrefixes ∧
      f1.commitsTree.saved = f.commitsTree.saved ∧
      f1.commitsTree.version = f.commitsTree.version := by
  unfold Forest.saveTree at hst
  rcases hsv : tq.Save f.db with ⟨r, t', db'⟩
  rw [hsv] at hst
  cases r with
  | error e => simp at hst
  | ok hv =>
    have hs := rwtree_save_ok hsv
    obtain ⟨hf, hhv, ht'⟩ := hs
    simp at hst
    rw [← hst]
    subst hhv
    subst ht'
    simp [Forest.setCommit, RWTree.Set]
    exact hf

theorem saveLoop_pending_other (ps : List Bytes) (f : Forest) (q : Bytes) (hq : q ∉ ps) :
    aGet ((f.saveLoop ps).2).commitsTree.pending q = aGet f.commitsTree.pending q := by
  induction ps generalizing f with
  | nil => rfl
  | cons p rest ih =>
    simp at hq
    push_neg at hq
    simp only [Forest.saveLoop]
    split
    · rfl
    · rename_i id hid
      split
      · rfl
      · rename_i t htp
        split
        · rcases hst : f.saveTree p id t with ⟨r, f1⟩
          cases r with
          | error e => -- saveTree failed: f1 = f
            unfold Forest.saveTree at hst
            rcases hsv : t.Save f.db with ⟨r0, t0, db0⟩
            rw [hsv] at hst
            cases r0 with
            | error e0 =>
              simp at hst
              rw [← hst.2]
            | ok hv => simp at hst
          | ok u =>
            have hs := saveTree_ok hst
            rw [ih f1 hq.2, hs.2.1, aGet_aSet_ne _ _ _ _ (fun hc => hq.1 hc.symm)]
        · exact ih f hq.2

theorem saveLoop_heap_other (ps : List Bytes) (f : Forest) (idx : Nat)
    (hids : ∀ p ∈ ps, ∀ j, aGet f.dirty p = some j → j ≠ idx) :
    aGet ((f.saveLoop ps).2).heap idx = aGet f.heap idx := by
  induction ps generalizing f with
  | nil => rfl
  | cons p rest ih =>
    simp only [Forest.saveLoop]
    split
    · rfl
    · rename_i id hid
      split
      · rfl
      · rename_i t htp
        split
        · rcases hst : f.saveTree p id t with ⟨r, f1⟩
          cases r with
          | error e =>
            unfold Forest.saveTree at hst
            rcases hsv : t.Save f.db with ⟨r0, t0, db0⟩
            rw [hsv] at hst
            cases r0 with
            | error e0 =>
              simp at hst
              rw [← hst.2]
            | ok hv => simp at hst
          | ok u =>
            have hs := saveTree_ok hst
            have hne : id ≠ idx := hids p (by simp) id hid
            have hids1 : ∀ p' ∈ rest, ∀ j, aGet f1.dirty p' = some j → j ≠ idx := by
              intro p' hp' j hj
              rw [hs.2.2.2.1] at hj
              exact hids p' (by simp [hp']) j hj
            rw [ih f1 hids1, hs.2.2.1, aGet_aSet_ne _ _ _ _ hne]
        · exact ih f (fun p' hp' j hj => hids p' (by simp [hp']) j hj)

theorem saveLoop_pending_nodup (ps : List Bytes) (f : Forest)
    (h : (f.commitsTree.pending.map Prod.fst).Nodup) :
    ((((f.saveLoop ps).2).commitsTree.pending).map Prod.fst).Nodup := by
  induction ps generalizing f with
  | nil => exact h
  | cons p rest ih =>
    simp only [Forest.saveLoop]
    split
    · exact h
    · rename_i id hid
      split
      · exact h
      · rename_i t htp
        split
        · rcases hst : f.saveTree p id t with ⟨r, f1⟩
          cases r with
          | error e =>
            unfold Forest.saveTree at hst
            rcases hsv : t.Save f.db with ⟨r0, t0, db0⟩
            rw [hsv] at hst
            cases r0 with
            | error e0 =>
              simp at hst
              rw [← hst.2]
              exact h
            | ok hv => simp at hst
          | ok u =>
            have hs := saveTree_ok hst
            refine ih f1 ?_
            rw [hs.2.1]
            exact aSet_keys_nodup _ _ h
        · exact ih f h

theorem aGet_inj_of_snd_nodup {l : List (Bytes × Nat)}
    (hnd : (l.map Prod.snd).Nodup) {p q : Bytes} {idp idq : Nat}
    (hp : aGet l p = some idp) (hq : aGet l q = some idq) (hne : p ≠ q) : idp ≠ idq := by
  intro he
  subst he
  have hp' := mem_of_aGet hp
  have hq' := mem_of_aGet hq
  have := List.inj_on_of_nodup_map hnd hp' hq' rfl
  rw [Prod.ext_iff] at this
  exact hne this.1

theorem saveLoop_spec (ps : List Bytes) (f : Forest)
    (hnd : ps.Nodup)
    (hids : ∀ p q idp idq, p ∈ ps → q ∈ ps → p ≠ q →
      aGet f.dirty p = some idp → aGet f.dirty q = some idq → idp ≠ idq)
    (hloop : (f.saveLoop ps).1 = .ok ()) :
    ∀ p ∈ ps, ∀ id t, aGet f.dirty p = some id → aGet f.heap id = some t →
      t.Updated = true →
      aGet ((f.saveLoop ps).2).commitsTree.pending p =
          some (some (marshalCommitID t.afterSave.Hash (t.version + 1))) ∧
        aGet ((f.saveLoop ps).2).heap id = some t.afterSave := by
  induction ps generalizing f with
  | nil =>
    intro p hp
    simp at hp
  | cons q rest ih =>
    rw [List.nodup_cons] at hnd
    rcases hdq : aGet f.dirty q with _ | idq
    · have hbad : (f.saveLoop (q :: rest)).1 = .error "nil tree" := by
        simp [Forest.saveLoop, hdq]
      rw [hbad] at hloop
      simp at hloop
    · rcases hhq : aGet f.heap idq with _ | tq
      · have hbad : (f.saveLoop (q :: rest)).1 = .error "nil tree" := by
          simp [Forest.saveLoop, hdq, hhq]
        rw [hbad] at hloop
        simp at hloop
      · by_cases hu : tq.Updated = true
        · rcases hst : f.saveTree q idq tq with ⟨r, f1⟩
          cases r with
          | error e =>
            have hbad : f.saveLoop (q :: rest) = (.error e, f1) := by
              simp [Forest.saveLoop, hdq, hhq, hu, hst]
            rw [hbad] at hloop
            simp at hloop
          | ok u =>
            have hrw : f.saveLoop (q :: rest) = f1.saveLoop rest := by
              simp [Forest.saveLoop, hdq, hhq, hu, hst]
            rw [hrw] at hloop ⊢
            have hs := saveTree_ok hst
            intro p hp id t hdp hhp hupd
            rcases List.mem_cons.1 hp with hpq | hpr
            · subst hpq
              rw [hdq] at hdp
              injection hdp with hdp
              subst hdp
              rw [hhq] at hhp
              injection hhp with hhp
              subst hhp
              constructor
              · rw [saveLoop_pending_other rest f1 p hnd.1, hs.2.1, aGet_aSet_self]
              · have hothers : ∀ p' ∈ rest, ∀ j, aGet f1.dirty p' = some j → j ≠ idq := by
                  intro p' hp' j hj
                  rw [hs.2.2.2.1] at hj
                  exact hids p' p j idq (by simp [hp']) (by simp)
                    (fun hc => hnd.1 (hc ▸ hp')) hj hdq
                rw [saveLoop_heap_other rest f1 idq hothers, hs.2.2.1, aGet_aSet_self]
            · have hpq : p ≠ q := fun hc => hnd.1 (hc ▸ hpr)
              have hdp1 : aGet f1.dirty p = some id := by
                rw [hs.2.2.2.1]
                exact hdp
              have hne : idq ≠ id :=
                hids q p idq id (by simp) (by simp [hpr]) (fun hc => hpq hc.symm) hdq hdp
              have hhp1 : aGet f1.heap id = some t := by
                rw [hs.2.2.1, aGet_aSet_ne _ _ _ _ hne]
                exact hhp
              have hids1 : ∀ a b ia ib, a ∈ rest → b ∈ rest → a ≠ b →
                  aGet f1.dirty a = some ia → aGet f1.dirty b = some ib → ia ≠ ib := by
                intro a b ia ib ha hb hab hia hib
                rw [hs.2.2.2.1] at hia hib
                exact hids a b ia ib (by simp [ha]) (by simp [hb]) hab hia hib
              exact ih f1 hnd.2 hids1 hloop p hpr id t hdp1 hhp1 hupd
        · have hrw : f.saveLoop (q :: rest) = f.saveLoop rest := by
            simp [Forest.saveLoop, hdq, hhq, hu]
          rw [hrw] at hloop ⊢
          intro p hp id t hdp hhp hupd
          rcases List.mem_cons.1 hp with hpq | hpr
          · subst hpq
            rw [hdq] at hdp
            injection hdp with hdp
            subst hdp
            rw [hhq] at hhp
            injection hhp with hhp
            subst hhp
            exact absurd hupd hu
          · have hids1 : ∀ a b ia ib, a ∈ rest → b ∈ rest → a ≠ b →
                aGet f.dirty a = some ia → aGet f.dirty b = some ib → ia ≠ ib := by
              intro a b ia ib ha hb hab hia hib
              exact hids a b ia ib (by simp [ha]) (by simp [hb]) hab hia hib
            exact ih f hnd.2 hids1 hloop p hpr id t hdp hhp hupd

/-- Well-formedness of a forest state, maintained by the public API:
the dirty-order list is exactly the key list of the dirty map (`Writer`
appends to both together), dirty keys and dirty tree instances are
without duplicates, and the commits tree's pending writes have unique
keys (they are produced by map-like `Set`/`Delete` updates). -/
def Forest.Wf (f : Forest) : Prop :=
  f.dirtyPrefixes = f.dirty.map Prod.fst ∧
    (f.dirty.map Prod.fst).Nodup ∧
    (f.dirty.map Prod.snd).Nodup ∧
    (f.commitsTree.pending.map Prod.fst).Nodup

instance (f : Forest) : Decidable f.Wf := by
  unfold Forest.Wf
  infer_instance

/-- **C3.** On a successful `Save`: the dirty map and dirty-order list
are emptied entirely (including namespaces that were dirty but not
`Updated()`); the commits tree itself is saved, advancing the global
version by one, and `Save` returns the commits tree's resulting hash and
version; and for every dirty namespace whose tree reported `Updated()`,
the tree's own save ran (its heap instance advanced to its saved state)
and a freshly marshalled `CommitID` holding the returned hash and new
version was written into the commits tree under that prefix. -/
theorem save_success (f : Forest) (h : Bytes) (v : Int) (hwf : f.Wf)
    (hok : (f.Save).1 = .ok (h, v)) :
    ((f.Save).2).dirty = [] ∧ ((f.Save).2).dirtyPrefixes = [] ∧
      v = f.commitsTree.version + 1 ∧ ((f.Save).2).commitsTree.version = v ∧
      h = ((f.Save).2).commitsTree.Hash ∧
      (∀ p id t, aGet f.dirty p = some id → aGet f.heap id = some t → t.Updated = true →
        aGet ((f.Save).2).commitsTree.saved p =
            some (marshalCommitID t.afterSave.Hash (t.version + 1)) ∧
          aGet ((f.Save).2).heap id = some t.afterSave) := by
  obtain ⟨hwf1, hwf2, hwf3, hwf4⟩ := hwf
  unfold Forest.Save at hok ⊢
  rcases hloop : f.saveLoop f.dirtyPrefixes with ⟨r, f1⟩
  cases r with
  | error e =>
    rw [hloop] at hok
    simp at hok
  | ok u =>
    rw [hloop] at hok
    simp only [] at hok ⊢
    rcases hcs : f1.commitsTree.Save f1.db with ⟨rc, ct', db'⟩
    cases rc with
    | error e =>
      rw [hcs] at hok
      simp at hok
    | ok hv =>
      rw [hcs] at hok
      simp only [] at hok ⊢
      have hhv : hv = (h, v) := by
        simpa using hok
      have hcsk := rwtree_save_ok hcs
      obtain ⟨hcf, hchv, hct'⟩ := hcsk
      have hpres := saveLoop_preserves f.dirtyPrefixes f
      rw [hloop] at hpres
      simp only [] at hpres
      have hvver : v = f.commitsTree.version + 1 := by
        have : hv.2 = f1.commitsTree.version + 1 := by rw [hchv]
        rw [hhv] at this
        simp at this
        rw [this, hpres.2.2.1]
      refine ⟨by simp, by simp, hvver, ?_, ?_, ?_⟩
      · rw [hct']
        have : hv.2 = f1.commitsTree.version + 1 := by rw [hchv]
        rw [hhv] at this
        simp at this
        simp [RWTree.afterSave, ← this]
      · rw [hct']
        have : hv.1 = f1.commitsTree.afterSave.Hash := by rw [hchv]
        rw [hhv] at this
        simpa using this
      · intro p id t hdp hhp hupd
        have hmem : p ∈ f.dirtyPrefixes := by
          rw [hwf1]
          exact List.mem_map.2 ⟨(p, id), mem_of_aGet hdp, rfl⟩
        have hnd : f.dirtyPrefixes.Nodup := by
          rw [hwf1]
          exact hwf2
        have hids : ∀ a b ia ib, a ∈ f.dirtyPrefixes → b ∈ f.dirtyPrefixes → a ≠ b →
            aGet f.dirty a = some ia → aGet f.dirty b = some ib → ia ≠ ib := by
          intro a b ia ib _ _ hab hia hib
          exact aGet_inj_of_snd_nodup hwf3 hia hib hab
        have hloop1 : (f.saveLoop f.dirtyPrefixes).1 = .ok () := by
          rw [hloop]
        have hspec := saveLoop_spec f.dirtyPrefixes f hnd hids hloop1 p hmem id t hdp hhp hupd
        rw [hloop] at hspec
        simp only [] at hspec
        have hpnd : ((f1.commitsTree.pending).map Prod.fst).Nodup := by
          have := saveLoop_pending_nodup f.dirtyPrefixes f hwf4
          rw [hloop] at this
          exact this
        constructor
        · rw [hct']
          show aGet f1.commitsTree.afterSave.saved p = _
          simp only [RWTree.afterSave]
          exact applyPend_aGet_some _ _ _ _ hpnd hspec.1
        · exact hspec.2

/-- Three dirty namespaces: `[3]` acquired but never mutated (dirty but
not updated), `[1]` and `[2]` with buffered writes. -/
def c3f : Forest := doSet (doSet (doWriter (mkMutableForest 10) [3]) [1] [7] [8]) [2] [7] [9]

/-- Witness for C3 on `c3f`. -/
theorem save_success_witness :
    c3f.Wf ∧ (c3f.Save).1 = .ok ([1, 1, 1, 9, 8, 1, 18, 5, 1, 1, 7, 1, 8, 1, 2, 9, 8, 1, 18, 5, 1, 1, 7, 1, 9], 1) ∧
      (((c3f.Save).2).dirty = [] ∧ ((c3f.Save).2).dirtyPrefixes = [] ∧
        (1 : Int) = c3f.commitsTree.version + 1 ∧
        ((c3f.Save).2).commitsTree.version = 1 ∧
        [1, 1, 1, 9, 8, 1, 18, 5, 1, 1, 7, 1, 8, 1, 2, 9, 8, 1, 18, 5, 1, 1, 7, 1, 9] = ((c3f.Save).2).commitsTree.Hash ∧
        (∀ p id t, aGet c3f.dirty p = some id → aGet c3f.heap id = some t → t.Updated = true →
          aGet ((c3f.Save).2).commitsTree.saved p =
              some (marshalCommitID t.afterSave.Hash (t.version + 1)) ∧
            aGet ((c3f.Save).2).heap id = some t.afterSave)) :=
  ⟨by decide, by decide,
    save_success c3f [1, 1, 1, 9, 8, 1, 18, 5, 1, 1, 7, 1, 8, 1, 2, 9, 8, 1, 18, 5, 1, 1, 7, 1, 9] 1 (by decide) (by decide)⟩
end Burrow
